import Mathlib

/-!
Verification of the registry reconciliation engine of `lido-keys-api`.

The embedding follows `src/common/registry/main/abstract-registry.ts`
(the reconciler), `src/http/keys/keys.service.ts` (the HTTP key reads and
the validators update watchdog).  Pure helpers that live outside the
provided sources (`compareMeta`, `compareOperators`, the validator-mirror
`getToIndex`) are modelled from the spec and marked as such in their doc
comments.
-/

namespace LidoKeys

/-- `RegistryMeta` row (`storage/meta.entity`): block snapshot plus the
contract's `keysOpIndex` counter. -/
structure RegistryMeta where
  blockNumber : Int
  blockHash : String
  keysOpIndex : Int
  timestamp : Int
deriving DecidableEq, Repr

/-- `RegistryOperator` row (`storage/operator.entity`). -/
structure RegistryOperator where
  index : Nat
  active : Bool
  name : String
  rewardAddress : String
  stakingLimit : Int
  stoppedValidators : Int
  totalSigningKeys : Nat
  usedSigningKeys : Nat
deriving DecidableEq, Repr

/-- `RegistryKey` row (`storage/key.entity`). -/
structure RegistryKey where
  operatorIndex : Nat
  index : Nat
  key : String
  depositSignature : String
  used : Bool
deriving DecidableEq, Repr

/-- Modelled from the spec: `compareMeta` lives in `utils/meta.utils`,
which is not among the provided sources.  Spec 4.6: `prev != null ∧
prev.keysOpIndex == curr.keysOpIndex ∧ prev.blockHash == curr.blockHash`. -/
def compareMeta (prev : Option RegistryMeta) (curr : RegistryMeta) : Bool :=
  match prev with
  | none => false
  | some p => p.keysOpIndex == curr.keysOpIndex && p.blockHash == curr.blockHash

/-- Modelled from the spec: `compareOperators` lives in
`utils/operator.utils`, which is not among the provided sources.  Spec 4.6:
field-wise equality of all operator columns; `null prev` returns false. -/
def compareOperators (prev : Option RegistryOperator) (curr : RegistryOperator) : Bool :=
  match prev with
  | none => false
  | some p =>
    p.index == curr.index && p.active == curr.active && p.name == curr.name &&
    p.rewardAddress == curr.rewardAddress && p.stakingLimit == curr.stakingLimit &&
    p.stoppedValidators == curr.stoppedValidators &&
    p.totalSigningKeys == curr.totalSigningKeys &&
    p.usedSigningKeys == curr.usedSigningKeys

/-- One upsert into `registry_key` as issued by `saveKeys`: the conflict
target is `['index', 'operator_index']` and `.merge()` replaces all
columns of the conflicting row. -/
def upsertKeyRow : List RegistryKey → RegistryKey → List RegistryKey
  | [], k => [k]
  | r :: rs, k =>
    if r.operatorIndex == k.operatorIndex && r.index == k.index then k :: rs
    else r :: upsertKeyRow rs k

/-- `saveKeys` of `abstract-registry.ts`: upsert every fetched key row
(the 499-row chunking inside one transaction does not change the result). -/
def saveKeys (stored : List RegistryKey) (fetched : List RegistryKey) : List RegistryKey :=
  fetched.foldl upsertKeyRow stored

/-- One upsert into `registry_operator` as issued by
`saveOperatorsAndMeta`: the conflict target is `'index'` and `.merge()`
replaces all columns. -/
def upsertOperatorRow : List RegistryOperator → RegistryOperator → List RegistryOperator
  | [], o => [o]
  | r :: rs, o =>
    if r.index == o.index then o :: rs
    else r :: upsertOperatorRow rs o

/-- The `nativeDelete(RegistryKey, { index: { $gte: operator.totalSigningKeys },
operatorIndex: operator.index })` of `saveOperatorsAndMeta`. -/
def deleteTailKeys (ks : List RegistryKey) (op : RegistryOperator) : List RegistryKey :=
  ks.filter (fun k => !(op.totalSigningKeys ≤ k.index && k.operatorIndex == op.index))

/-- The mirrored database state: at most one `Meta` row, the operator
rows and the key rows. -/
structure RegistryStore where
  meta : Option RegistryMeta
  operators : List RegistryOperator
  keys : List RegistryKey
deriving DecidableEq, Repr

/-- `saveOperatorsAndMeta` of `abstract-registry.ts`: per current operator
delete its keys with `index ≥ totalSigningKeys`, upsert the current
operators on conflict target `index`, then replace the `Meta` row. -/
def saveOperatorsAndMeta (s : RegistryStore) (currentOperators : List RegistryOperator)
    (currMeta : RegistryMeta) : RegistryStore :=
  { meta := some currMeta,
    operators := currentOperators.foldl upsertOperatorRow s.operators,
    keys := currentOperators.foldl deleteTailKeys s.keys }

/-- The chain as seen through the fetch services during one cycle:
`meta` is the resolved `currMeta`, `operators` the list returned by
`operatorFetch.fetch(0, -1)`, and `fetchKeys o from to` the keys returned
by `keyFetch.fetch(o, from, to)` pinned to the cycle's block hash. -/
structure Chain where
  meta : RegistryMeta
  operators : List RegistryOperator
  fetchKeys : Nat → Nat → Nat → List RegistryKey

/-- The `unchangedKeysMaxIndex` computation of
`syncUpdatedKeysWithContract`: `isSameOperator ? prevOperator.usedSigningKeys : 0`. -/
def unchangedKeysMaxIndex (prevOperator : Option RegistryOperator)
    (curr : RegistryOperator) : Nat :=
  if compareOperators prevOperator curr then
    (prevOperator.map RegistryOperator.usedSigningKeys).getD 0
  else 0

/-- The `fromIndex` computation of `syncUpdatedKeysWithContract`:
`unchangedKeysMaxIndex <= toIndex ? unchangedKeysMaxIndex : 0`. -/
def fromIndexFor (prevOperator : Option RegistryOperator) (curr : RegistryOperator)
    (toIndex : Nat) : Nat :=
  let unchanged := unchangedKeysMaxIndex prevOperator curr
  if unchanged ≤ toIndex then unchanged else 0

/-- The positional previous-operator selection of
`syncUpdatedKeysWithContract`: `previousOperators[currentIndex] ?? null`,
where `currentIndex` is the position of `curr` in `currentOperators`. -/
def prevOperatorFor (previousOperators : List RegistryOperator)
    (currentIndex : Nat) : Option RegistryOperator :=
  previousOperators[currentIndex]?

/-- Follows the spec's words, for the refinement comparison of the
per-operator sync: `prev = prevOperators[curr.index]`, i.e. the stored
operator whose contract index equals `curr.index`, or null. -/
def specPrevOperator (previousOperators : List RegistryOperator)
    (curr : RegistryOperator) : Option RegistryOperator :=
  previousOperators.find? (fun p => p.index == curr.index)

/-- `syncUpdatedKeysWithContract` of `abstract-registry.ts`: walk
`currentOperators` with their positions, compute the fetch range, fetch,
and `saveKeys` each batch.  Also records every issued
`keyFetch.fetch(operatorIndex, fromIndex, toIndex)` call. -/
def syncUpdatedKeysWithContract (getToIndex : RegistryOperator → Nat) (chain : Chain)
    (previousOperators : List RegistryOperator) :
    Nat → List RegistryOperator → List RegistryKey →
    List RegistryKey × List (Nat × Nat × Nat)
  | _, [], stored => (stored, [])
  | currentIndex, curr :: rest, stored =>
    let prevOperator := prevOperatorFor previousOperators currentIndex
    let toIndex := getToIndex curr
    let fromIndex := fromIndexFor prevOperator curr toIndex
    let fetched := chain.fetchKeys curr.index fromIndex toIndex
    let stored1 := saveKeys stored fetched
    let res := syncUpdatedKeysWithContract getToIndex chain previousOperators
      (currentIndex + 1) rest stored1
    (res.1, (curr.index, fromIndex, toIndex) :: res.2)

/-- Which branch of `update` ran. -/
inductive UpdatePath
  | staleGuard
  | fastPath
  | slowPath
deriving DecidableEq, Repr

/-- Result of one `update` call: final store, the branch taken, how many
`operatorFetch.fetch` calls ran, and every `keyFetch.fetch` call with its
`(operatorIndex, fromIndex, toIndex)` arguments. -/
structure UpdateResult where
  store : RegistryStore
  path : UpdatePath
  operatorFetchCount : Nat
  keyFetchCalls : List (Nat × Nat × Nat)
deriving DecidableEq, Repr

/-- `update` of `abstract-registry.ts`: load `prevMeta`, resolve
`currMeta`, stale-guard on block numbers (`prevMeta?.blockNumber ?? -1`),
fast path when `compareMeta` holds (replace only the `Meta` row), else
`saveOperatorsAndMeta` followed by `syncUpdatedKeysWithContract`. -/
def update (getToIndex : RegistryOperator → Nat) (chain : Chain)
    (s : RegistryStore) : UpdateResult :=
  let prevMeta := s.meta
  let currMeta := chain.meta
  let isSameContractState := compareMeta prevMeta currMeta
  let previousBlockNumber := (prevMeta.map RegistryMeta.blockNumber).getD (-1)
  let currentBlockNumber := currMeta.blockNumber
  if previousBlockNumber > currentBlockNumber then
    { store := s, path := .staleGuard, operatorFetchCount := 0, keyFetchCalls := [] }
  else if isSameContractState then
    { store := { s with meta := some currMeta }, path := .fastPath,
      operatorFetchCount := 0, keyFetchCalls := [] }
  else
    let previousOperators := s.operators
    let currentOperators := chain.operators
    let s1 := saveOperatorsAndMeta s currentOperators currMeta
    let res := syncUpdatedKeysWithContract getToIndex chain previousOperators
      0 currentOperators s1.keys
    { store := { s1 with keys := res.1 }, path := .slowPath,
      operatorFetchCount := 1, keyFetchCalls := res.2 }

/-- `getToIndex` of the key-registry service (witnessed by the
`key-registry` test in `src`): the right border is `totalSigningKeys`. -/
def keyRegistryGetToIndex (curr : RegistryOperator) : Nat :=
  curr.totalSigningKeys

/-- Modelled from the spec: the validator-mirror `getToIndex` (service not
among the provided sources) returns `curr.usedSigningKeys`. -/
def validatorRegistryGetToIndex (curr : RegistryOperator) : Nat :=
  curr.usedSigningKeys

/-- Lookup of the key row at cell `(operatorIndex, index)`. -/
def keyLookup (ks : List RegistryKey) (o i : Nat) : Option RegistryKey :=
  ks.find? (fun k => k.operatorIndex == o && k.index == i)

/-- Spec invariant 2 (total bound): every stored key row belongs to a
stored operator row and sits strictly below its `totalSigningKeys`. -/
def KeysBound (s : RegistryStore) : Prop :=
  ∀ k ∈ s.keys, ∃ op ∈ s.operators,
    op.index = k.operatorIndex ∧ k.index < op.totalSigningKeys

/-- Key row of the multi-module store layout (spec 3): the entity carries
a `moduleAddress` besides the registry key columns. -/
structure ModuleKeyRow where
  moduleAddress : String
  operatorIndex : Nat
  index : Nat
  key : String
  depositSignature : String
  used : Bool
deriving DecidableEq, Repr

/-- Operator row of the multi-module store layout. -/
structure ModuleOperatorRow where
  moduleAddress : String
  index : Nat
  active : Bool
  name : String
  rewardAddress : String
  stakingLimit : Int
  stoppedValidators : Int
  totalSigningKeys : Nat
  usedSigningKeys : Nat
deriving DecidableEq, Repr

/-- The key upsert exactly as `saveKeys` issues it:
`.onConflict(['index', 'operator_index']).merge()` — the conflict target
carries no module address, and `.merge()` replaces all columns. -/
def upsertModuleKeyRow : List ModuleKeyRow → ModuleKeyRow → List ModuleKeyRow
  | [], k => [k]
  | r :: rs, k =>
    if r.index == k.index && r.operatorIndex == k.operatorIndex then k :: rs
    else r :: upsertModuleKeyRow rs k

/-- `saveKeys` on the multi-module layout: fold of the code's upsert. -/
def saveModuleKeys (stored : List ModuleKeyRow) (batch : List ModuleKeyRow) :
    List ModuleKeyRow :=
  batch.foldl upsertModuleKeyRow stored

/-- The operator upsert exactly as `saveOperatorsAndMeta` issues it:
`.onConflict('index').merge()` — no module address in the conflict target. -/
def upsertModuleOperatorRow :
    List ModuleOperatorRow → ModuleOperatorRow → List ModuleOperatorRow
  | [], o => [o]
  | r :: rs, o =>
    if r.index == o.index then o :: rs
    else r :: upsertModuleOperatorRow rs o

/-- Follows the spec's words, for the refinement comparison: a key upsert
keyed on the full composite primary key
`(moduleAddress, operatorIndex, index)`. -/
def upsertModuleKeyRowSpec : List ModuleKeyRow → ModuleKeyRow → List ModuleKeyRow
  | [], k => [k]
  | r :: rs, k =>
    if r.moduleAddress == k.moduleAddress && r.operatorIndex == k.operatorIndex &&
        r.index == k.index then k :: rs
    else r :: upsertModuleKeyRowSpec rs k

/-- Follows the spec's words, for the refinement comparison: an operator
upsert keyed on `(moduleAddress, index)`. -/
def upsertModuleOperatorRowSpec :
    List ModuleOperatorRow → ModuleOperatorRow → List ModuleOperatorRow
  | [], o => [o]
  | r :: rs, o =>
    if r.moduleAddress == o.moduleAddress && r.index == o.index then o :: rs
    else r :: upsertModuleOperatorRowSpec rs o

/-- Staking module types as far as the key read services distinguish
them: `CURATED_ONCHAIN_V1_TYPE` against everything else. -/
inductive StakingModuleType
  | curatedOnchainV1
  | other
deriving DecidableEq, Repr

/-- A staking module as listed by `stakingRouterService.getStakingModules()`. -/
structure StakingModule where
  type : StakingModuleType
  stakingModuleAddress : String
deriving DecidableEq, Repr

/-- The `ELBlockSnapshot` DTO built from a meta row. -/
structure ELBlockSnapshot where
  blockNumber : Int
  blockHash : String
  timestamp : Int
deriving DecidableEq, Repr

/-- `new ELBlockSnapshot(meta)`. -/
def elBlockSnapshotOfMeta (m : RegistryMeta) : ELBlockSnapshot :=
  ⟨m.blockNumber, m.blockHash, m.timestamp⟩

/-- The HTTP exceptions `KeysService` raises: `httpExceptionTooEarlyResp`
(HTTP 425) and `NotFoundException` (HTTP 404). -/
inductive HttpError
  | tooEarly
  | notFound (message : String)
deriving DecidableEq, Repr

/-- `KeyWithModuleAddress` DTO. -/
structure KeyWithModuleAddress where
  key : RegistryKey
  moduleAddress : String
deriving DecidableEq, Repr

/-- `KeyListResponse`: the collected keys plus the EL block snapshot. -/
structure KeyListResponse where
  data : List KeyWithModuleAddress
  elBlockSnapshot : ELBlockSnapshot
deriving DecidableEq, Repr

/-- `KeysService.get` of `keys.service.ts`: empty staking-module list or
null meta raise `TooEarly`; otherwise the response carries the EL block
snapshot (the keys stream itself makes no control-flow decisions, so the
model returns the snapshot).  The inner match mirrors the code's final
null check on the snapshot variable. -/
def KeysService.get (stakingModules : List StakingModule)
    (meta : Option RegistryMeta) : Except HttpError ELBlockSnapshot :=
  if stakingModules.length == 0 then .error .tooEarly
  else
    match meta with
    | none => .error .tooEarly
    | some m =>
      match some (elBlockSnapshotOfMeta m) with
      | none => .error .tooEarly
      | some snap => .ok snap

/-- The module loop shared by `getByPubkey` and `getByPubkeys`: walk the
staking modules with their position `i`, query the curated service for
each curated module (`curatedKeys`/`meta` model its fixed answer within
one request), raise `TooEarly` on null meta, collect address-tagged keys,
and set the snapshot only at position 0. -/
def collectCuratedKeys (curatedKeys : List RegistryKey)
    (meta : Option RegistryMeta) :
    Nat → List StakingModule → List (List KeyWithModuleAddress) →
    Option ELBlockSnapshot →
    Except HttpError (List (List KeyWithModuleAddress) × Option ELBlockSnapshot)
  | _, [], collected, snap => .ok (collected, snap)
  | i, m :: rest, collected, snap =>
    if m.type == .curatedOnchainV1 then
      match meta with
      | none => .error .tooEarly
      | some mt =>
        let keysWithAddress := curatedKeys.map
          (fun k => KeyWithModuleAddress.mk k m.stakingModuleAddress)
        let snap1 := if i == 0 then some (elBlockSnapshotOfMeta mt) else snap
        collectCuratedKeys curatedKeys meta (i + 1) rest
          (collected ++ [keysWithAddress]) snap1
    else
      collectCuratedKeys curatedKeys meta (i + 1) rest collected snap

/-- `KeysService.getByPubkey`: empty module list raises `TooEarly`, the
module loop may raise `TooEarly`, a null snapshot raises `TooEarly`, and
an empty flattened key list raises `NotFoundException`. -/
def KeysService.getByPubkey (stakingModules : List StakingModule)
    (pubkey : String) (curatedKeys : List RegistryKey)
    (meta : Option RegistryMeta) : Except HttpError KeyListResponse :=
  if stakingModules.length == 0 then .error .tooEarly
  else
    match collectCuratedKeys curatedKeys meta 0 stakingModules [] none with
    | .error e => .error e
    | .ok (collected, snap) =>
      match snap with
      | none => .error .tooEarly
      | some elBlockSnapshot =>
        let keys := collected.flatten
        if keys.length == 0 then
          .error (.notFound s!"There are no keys with {pubkey} public key in db.")
        else .ok ⟨keys, elBlockSnapshot⟩

/-- `KeysService.getByPubkeys`: identical walk, but an empty collected
result is returned as an empty data list, with no 404. -/
def KeysService.getByPubkeys (stakingModules : List StakingModule)
    (curatedKeys : List RegistryKey) (meta : Option RegistryMeta) :
    Except HttpError KeyListResponse :=
  if stakingModules.length == 0 then .error .tooEarly
  else
    match collectCuratedKeys curatedKeys meta 0 stakingModules [] none with
    | .error e => .error e
    | .ok (collected, snap) =>
      match snap with
      | none => .error .tooEarly
      | some elBlockSnapshot => .ok ⟨collected.flatten, elBlockSnapshot⟩

/-- Meta returned by `validatorsService.updateValidators`. -/
structure ValidatorsMeta where
  timestamp : Int
  blockNumber : Int
  slot : Int
deriving DecidableEq, Repr

/-- `UPDATE_VALIDATORS_TIMEOUT_MS` of `ValidatorsUpdateService`. -/
def UPDATE_VALIDATORS_TIMEOUT_MS : Int := 90 * 60 * 1000

/-- Watchdog state of `ValidatorsUpdateService`: every armed, uncleared
`setTimeout` as `(id, deadline in ms)`, the id held in
`updateDeadlineTimer`, and the last observed block data. -/
structure WatchdogState where
  timers : List (Nat × Int)
  refTimer : Option Nat
  lastBlockTimestampSec : Option Int
  lastBlockNumber : Option Int
  nextId : Nat
deriving DecidableEq, Repr

/-- The `isUpdated` expression of `checkValidatorsUpdateTimeout`
(JS truthiness makes a `0` timestamp falsy, hence the extra check). -/
def isUpdated (st : WatchdogState) (nowMs : Int) : Bool :=
  match st.lastBlockTimestampSec with
  | none => false
  | some t =>
    t != 0 && (nowMs / 1000 - t < UPDATE_VALIDATORS_TIMEOUT_MS / 1000)

/-- `checkValidatorsUpdateTimeout`: clear the referenced timer only when
it exists and `isUpdated` holds, then always arm a fresh deadline timer
and store its id in `updateDeadlineTimer`. -/
def checkValidatorsUpdateTimeout (st : WatchdogState) (nowMs : Int) :
    WatchdogState :=
  let cleared :=
    match st.refTimer with
    | some id =>
      if isUpdated st nowMs then st.timers.filter (fun p => p.1 != id)
      else st.timers
    | none => st.timers
  { timers := cleared ++ [(st.nextId, nowMs + UPDATE_VALIDATORS_TIMEOUT_MS)],
    refTimer := some st.nextId,
    lastBlockTimestampSec := st.lastBlockTimestampSec,
    lastBlockNumber := st.lastBlockNumber,
    nextId := st.nextId + 1 }

/-- The tail of `updateValidators` after
`validatorsService.updateValidators('finalized')` returns: record
`meta?.timestamp ?? lastBlockTimestampSec` and
`meta?.blockNumber ?? lastBlockNumber`, then re-run
`checkValidatorsUpdateTimeout`. -/
def successfulCycle (st : WatchdogState) (nowMs : Int)
    (meta : Option ValidatorsMeta) : WatchdogState :=
  let st1 :=
    { st with
      lastBlockTimestampSec :=
        match meta with
        | some m => some m.timestamp
        | none => st.lastBlockTimestampSec,
      lastBlockNumber :=
        match meta with
        | some m => some m.blockNumber
        | none => st.lastBlockNumber }
  checkValidatorsUpdateTimeout st1 nowMs

/-- The error class the deadline timer constructs when it fires. -/
structure ValidatorsOutdatedError where
  message : String
  lastBlock : Option Int
deriving DecidableEq, Repr

/-- The deadline-timer callback: build a `ValidatorsOutdatedError` with
the current `lastBlockNumber`, log it, and `process.exit(1)`; the model
returns the error and the exit code. -/
def watchdogFire (st : WatchdogState) : ValidatorsOutdatedError × Nat :=
  (⟨s!"There were no validators update more than {UPDATE_VALIDATORS_TIMEOUT_MS / (60 * 1000)} minutes",
    st.lastBlockNumber⟩, 1)

end LidoKeys

namespace LidoKeys

/-- C1: a second `update` against an unchanged contract state takes the
fast path: no operator fetch, no key fetch, the `Meta` row is replaced
with the identical `currMeta`, and the store is left exactly as the first
call left it. -/
theorem update_fastPath_idempotent (g : RegistryOperator → Nat) (chain : Chain)
    (s : RegistryStore) (hsame : s.meta = some chain.meta) :
    update g chain s = ⟨s, .fastPath, 0, []⟩ := by
  unfold update
  rw [hsame]
  simp only [Option.map_some', Option.getD_some, compareMeta, beq_self_eq_true,
    Bool.and_self, if_pos, lt_irrefl]
  cases s with
  | mk m ops ks =>
    simp only [Option.some.injEq] at hsame
    simp [hsame]

/-- Witness for C1 at a concrete store and chain. -/
theorem update_fastPath_idempotent_witness :
    update keyRegistryGetToIndex
      { meta := ⟨100, "0xAA", 7, 1700⟩, operators := [], fetchKeys := fun _ _ _ => [] }
      { meta := some ⟨100, "0xAA", 7, 1700⟩, operators := [], keys := [] } =
      ⟨{ meta := some ⟨100, "0xAA", 7, 1700⟩, operators := [], keys := [] },
        .fastPath, 0, []⟩ :=
  update_fastPath_idempotent keyRegistryGetToIndex
    { meta := ⟨100, "0xAA", 7, 1700⟩, operators := [], fetchKeys := fun _ _ _ => [] }
    { meta := some ⟨100, "0xAA", 7, 1700⟩, operators := [], keys := [] } rfl

/-- Positional indexing agrees with find-by-index when entry `j` of the
list carries contract index `off + j`. -/
theorem getElem?_eq_find?_of_shifted (l : List RegistryOperator) (off : Nat)
    (hdense : ∀ j (h : j < l.length), (l.get ⟨j, h⟩).index = off + j) (i : Nat) :
    l[i]? = l.find? (fun p => p.index == off + i) := by
  induction l generalizing off i with
  | nil => simp
  | cons p rest ih =>
    have hp : p.index = off := by simpa using hdense 0 (Nat.succ_pos _)
    cases i with
    | zero =>
      simp [List.find?_cons, hp]
    | succ j =>
      have hne : (p.index == off + (j + 1)) = false := by
        simp only [beq_eq_false_iff_ne, ne_eq, hp]
        omega
      have hrest : ∀ k (h : k < rest.length), (rest.get ⟨k, h⟩).index = (off + 1) + k := by
        intro k h
        have := hdense (k + 1) (by simpa using Nat.succ_lt_succ h)
        simpa [Nat.add_assoc, Nat.add_comm 1 k] using this
      have := ih (off + 1) hrest j
      simp only [List.getElem?_cons_succ, List.find?_cons, hne]
      rw [this]
      have harith : off + 1 + j = off + (j + 1) := by omega
      rw [harith]

/-- C2: when the stored meta is newer than the resolved one
(`prevMeta.blockNumber > currMeta.blockNumber`), `update` returns through
the stale guard: no store write, no operator fetch, no key fetch. -/
theorem update_staleGuard_noop (g : RegistryOperator → Nat) (chain : Chain)
    (s : RegistryStore) (p : RegistryMeta) (hprev : s.meta = some p)
    (hnewer : p.blockNumber > chain.meta.blockNumber) :
    update g chain s = ⟨s, .staleGuard, 0, []⟩ := by
  unfold update
  rw [hprev]
  simp only [Option.map_some', Option.getD_some]
  rw [if_pos hnewer]

/-- Witness for C2 at a concrete store and chain. -/
theorem update_staleGuard_noop_witness :
    update keyRegistryGetToIndex
      { meta := ⟨90, "0xBB", 9, 1800⟩, operators := [], fetchKeys := fun _ _ _ => [] }
      { meta := some ⟨100, "0xAA", 7, 1700⟩, operators := [], keys := [] } =
      ⟨{ meta := some ⟨100, "0xAA", 7, 1700⟩, operators := [], keys := [] },
        .staleGuard, 0, []⟩ :=
  update_staleGuard_noop keyRegistryGetToIndex
    { meta := ⟨90, "0xBB", 9, 1800⟩, operators := [], fetchKeys := fun _ _ _ => [] }
    { meta := some ⟨100, "0xAA", 7, 1700⟩, operators := [], keys := [] }
    ⟨100, "0xAA", 7, 1700⟩ rfl (by decide)

/-- C3, counterexample: the code pairs `curr` with
`previousOperators[currentIndex]` — the entry at the same list position —
not with the stored operator whose contract index equals `curr.index`.
With `findAllOperators` returning `[op₁, op₀]` (descending) the operator
compared against `op₀` (position 0) is `op₁`, the fetch range for
operator 0 therefore restarts at 0 even though the stored operator 0 is
identical to the current one. -/
theorem prevOperator_positional_counterexample :
    prevOperatorFor
        [⟨1, true, "b", "rb", 0, 0, 10, 5⟩, ⟨0, true, "a", "ra", 0, 0, 10, 2⟩] 0 =
      some ⟨1, true, "b", "rb", 0, 0, 10, 5⟩ ∧
    specPrevOperator
        [⟨1, true, "b", "rb", 0, 0, 10, 5⟩, ⟨0, true, "a", "ra", 0, 0, 10, 2⟩]
        ⟨0, true, "a", "ra", 0, 0, 10, 2⟩ =
      some ⟨0, true, "a", "ra", 0, 0, 10, 2⟩ ∧
    (update keyRegistryGetToIndex
        { meta := ⟨101, "0xBB", 8, 1701⟩,
          operators := [⟨0, true, "a", "ra", 0, 0, 10, 2⟩, ⟨1, true, "b", "rb", 0, 0, 10, 5⟩],
          fetchKeys := fun _ _ _ => [] }
        { meta := some ⟨100, "0xAA", 7, 1700⟩,
          operators := [⟨1, true, "b", "rb", 0, 0, 10, 5⟩, ⟨0, true, "a", "ra", 0, 0, 10, 2⟩],
          keys := [] }).keyFetchCalls = [(0, 0, 10), (1, 0, 10)] := by
  refine ⟨rfl, by decide, ?_⟩
  decide

/-- C3, amended: `prev` is the entry of `findAllOperators` at the same
list position as `curr` in `currentOperators` (or null); this coincides
with the stored operator of contract index `curr.index` exactly when the
stored list is dense and sorted (entry `j` has index `j`) and `curr` sits
at position `curr.index`. -/
theorem prevOperator_positional_eq_byIndex (previousOperators : List RegistryOperator)
    (hdense : ∀ j (h : j < previousOperators.length),
      (previousOperators.get ⟨j, h⟩).index = j)
    (curr : RegistryOperator) (i : Nat) (hcurr : curr.index = i) :
    prevOperatorFor previousOperators i = specPrevOperator previousOperators curr := by
  unfold prevOperatorFor specPrevOperator
  have h := getElem?_eq_find?_of_shifted previousOperators 0
    (by simpa using hdense) i
  rw [h, hcurr]
  simp

/-- Witness for the amended C3 on a concrete dense stored list. -/
theorem prevOperator_positional_eq_byIndex_witness :
    prevOperatorFor
        [⟨0, true, "a", "ra", 0, 0, 10, 2⟩, ⟨1, true, "b", "rb", 0, 0, 10, 5⟩] 1 =
      specPrevOperator
        [⟨0, true, "a", "ra", 0, 0, 10, 2⟩, ⟨1, true, "b", "rb", 0, 0, 10, 5⟩]
        ⟨1, true, "b", "rb", 0, 0, 10, 5⟩ :=
  prevOperator_positional_eq_byIndex
    [⟨0, true, "a", "ra", 0, 0, 10, 2⟩, ⟨1, true, "b", "rb", 0, 0, 10, 5⟩]
    (by decide) ⟨1, true, "b", "rb", 0, 0, 10, 5⟩ 1 rfl

/-- Helper: the computed `fromIndex` never exceeds the given `toIndex`. -/
theorem fromIndexFor_le (prevOperator : Option RegistryOperator)
    (curr : RegistryOperator) (toIndex : Nat) :
    fromIndexFor prevOperator curr toIndex ≤ toIndex := by
  unfold fromIndexFor
  by_cases h : unchangedKeysMaxIndex prevOperator curr ≤ toIndex
  · simp [h]
  · simp [h]

/-- Helper: every key-fetch call recorded by the sync walk has
`fromIndex ≤ toIndex`. -/
theorem sync_calls_from_le_to (g : RegistryOperator → Nat) (chain : Chain)
    (prevOps : List RegistryOperator) :
    ∀ i ops stored c,
      c ∈ (syncUpdatedKeysWithContract g chain prevOps i ops stored).2 →
      c.2.1 ≤ c.2.2 := by
  intro i ops
  induction ops generalizing i with
  | nil => intro stored c hc; simp [syncUpdatedKeysWithContract] at hc
  | cons curr rest ih =>
    intro stored c hc
    simp only [syncUpdatedKeysWithContract, List.mem_cons] at hc
    rcases hc with hc | hc
    · subst hc
      exact fromIndexFor_le _ _ _
    · exact ih (i + 1) _ c hc

/-- C4: the lower fetch border is `prev.usedSigningKeys` when
`compareOperators prev curr` holds and `0` otherwise, clamped to `0`
whenever it would exceed `toIndex`; hence `fromIndex ≤ toIndex` always,
both for the pure computation and for every key-fetch call `update`
actually issues. -/
theorem getFromIndex_spec (prevOperator : Option RegistryOperator)
    (curr : RegistryOperator) (toIndex : Nat) :
    fromIndexFor prevOperator curr toIndex ≤ toIndex ∧
    (compareOperators prevOperator curr = true →
      ∃ p, prevOperator = some p ∧
        fromIndexFor prevOperator curr toIndex =
          if p.usedSigningKeys ≤ toIndex then p.usedSigningKeys else 0) ∧
    (compareOperators prevOperator curr = false →
      fromIndexFor prevOperator curr toIndex = 0) ∧
    (∀ (g : RegistryOperator → Nat) (chain : Chain) (s : RegistryStore),
      ∀ c ∈ (update g chain s).keyFetchCalls, c.2.1 ≤ c.2.2) := by
  refine ⟨fromIndexFor_le _ _ _, ?_, ?_, ?_⟩
  · intro hsame
    match prevOperator, hsame with
    | some p, hsame =>
      refine ⟨p, rfl, ?_⟩
      unfold fromIndexFor unchangedKeysMaxIndex
      rw [if_pos hsame]
      simp only [Option.map_some', Option.getD_some]
  · intro hdiff
    simp [fromIndexFor, unchangedKeysMaxIndex, hdiff]
  · intro g chain s c hc
    unfold update at hc
    by_cases h1 :
        ((s.meta.map RegistryMeta.blockNumber).getD (-1)) > chain.meta.blockNumber
    · simp only [h1, if_pos] at hc
      simp at hc
    · rw [if_neg h1] at hc
      by_cases h2 : compareMeta s.meta chain.meta
      · rw [if_pos h2] at hc
        simp at hc
      · rw [if_neg h2] at hc
        exact sync_calls_from_le_to g chain s.operators 0 chain.operators _ c hc

/-- Witness for C4: an identical operator with `usedSigningKeys = 5` and
`toIndex = 3` is clamped to `0`, which indeed stays below `toIndex`. -/
theorem getFromIndex_spec_witness :
    fromIndexFor (some ⟨0, true, "op", "ra", 0, 0, 10, 5⟩)
        ⟨0, true, "op", "ra", 0, 0, 10, 5⟩ 3 = 0 ∧
    fromIndexFor (some ⟨0, true, "op", "ra", 0, 0, 10, 5⟩)
        ⟨0, true, "op", "ra", 0, 0, 10, 5⟩ 3 ≤ 3 := by
  have h := getFromIndex_spec (some ⟨0, true, "op", "ra", 0, 0, 10, 5⟩)
    ⟨0, true, "op", "ra", 0, 0, 10, 5⟩ 3
  obtain ⟨hle, hsame, -, -⟩ := h
  obtain ⟨p, hp, heq⟩ := hsame (by decide)
  refine ⟨?_, hle⟩
  cases hp
  simpa using heq

/-- Helper: a key upsert only produces the new row or rows already present. -/
theorem mem_upsertKeyRow {l : List RegistryKey} {c x : RegistryKey}
    (hx : x ∈ upsertKeyRow l c) : x = c ∨ x ∈ l := by
  induction l with
  | nil => simpa [upsertKeyRow] using hx
  | cons r rs ih =>
    simp only [upsertKeyRow] at hx
    split at hx
    · rcases List.mem_cons.mp hx with h1 | h1
      · exact .inl h1
      · exact .inr (List.mem_cons_of_mem _ h1)
    · rcases List.mem_cons.mp hx with h1 | h1
      · exact .inr (h1 ▸ List.mem_cons_self _ _)
      · rcases ih h1 with h2 | h2
        · exact .inl h2
        · exact .inr (List.mem_cons_of_mem _ h2)

/-- Helper: `saveKeys` only produces stored or fetched rows. -/
theorem mem_saveKeys {stored fetched : List RegistryKey} {x : RegistryKey}
    (hx : x ∈ saveKeys stored fetched) : x ∈ stored ∨ x ∈ fetched := by
  induction fetched generalizing stored with
  | nil => exact .inl (by simpa [saveKeys] using hx)
  | cons c cs ih =>
    have hx' : x ∈ saveKeys (upsertKeyRow stored c) cs := by
      simpa [saveKeys] using hx
    rcases ih hx' with h | h
    · rcases mem_upsertKeyRow h with h1 | h1
      · exact .inr (h1 ▸ List.mem_cons_self _ _)
      · exact .inl h1
    · exact .inr (List.mem_cons_of_mem _ h)

/-- Helper: an operator upsert always contains the upserted row. -/
theorem self_mem_upsertOperatorRow (l : List RegistryOperator)
    (c : RegistryOperator) : c ∈ upsertOperatorRow l c := by
  induction l with
  | nil => simp [upsertOperatorRow]
  | cons r rs ih =>
    simp only [upsertOperatorRow]
    split
    · exact List.mem_cons_self _ _
    · exact List.mem_cons_of_mem _ ih

/-- Helper: rows whose index differs from the upserted row survive an
operator upsert. -/
theorem mem_upsertOperatorRow_of_ne {l : List RegistryOperator}
    {c x : RegistryOperator} (hx : x ∈ l) (hne : x.index ≠ c.index) :
    x ∈ upsertOperatorRow l c := by
  induction l with
  | nil => cases hx
  | cons r rs ih =>
    rcases List.mem_cons.mp hx with h | h
    · subst h
      simp only [upsertOperatorRow]
      split
      · next hcond =>
        exact absurd (by simpa using hcond : x.index = c.index) hne
      · exact List.mem_cons_self _ _
    · simp only [upsertOperatorRow]
      split
      · exact List.mem_cons_of_mem _ h
      · exact List.mem_cons_of_mem _ (ih h)

/-- Helper: after an operator upsert, every old row is represented by a
row of the same index — itself or the upserted row. -/
theorem exists_mem_upsertOperatorRow {l : List RegistryOperator}
    {op : RegistryOperator} (c : RegistryOperator) (hop : op ∈ l) :
    ∃ y ∈ upsertOperatorRow l c, y.index = op.index ∧ (y = op ∨ y = c) := by
  by_cases hne : op.index = c.index
  · exact ⟨c, self_mem_upsertOperatorRow l c, hne.symm, .inr rfl⟩
  · exact ⟨op, mem_upsertOperatorRow_of_ne hop hne, rfl, .inl rfl⟩

/-- Helper: after the operator-upsert fold, every old row is represented
by a row of the same index — itself or one of the upserted rows. -/
theorem exists_mem_foldl_upsert {base : List RegistryOperator}
    {op : RegistryOperator} (cs : List RegistryOperator) (hop : op ∈ base) :
    ∃ y ∈ cs.foldl upsertOperatorRow base,
      y.index = op.index ∧ (y = op ∨ y ∈ cs) := by
  induction cs generalizing base op with
  | nil => exact ⟨op, by simpa using hop, rfl, .inl rfl⟩
  | cons c cs ih =>
    obtain ⟨y1, hy1, hidx1, hcase1⟩ := exists_mem_upsertOperatorRow c hop
    obtain ⟨y, hy, hidx, hcase⟩ := ih hy1
    refine ⟨y, by simpa using hy, hidx.trans hidx1, ?_⟩
    rcases hcase with h | h
    · subst h
      rcases hcase1 with h1 | h1
      · exact .inl h1
      · exact .inr (h1 ▸ List.mem_cons_self _ _)
    · exact .inr (List.mem_cons_of_mem _ h)

/-- Helper: a row whose index clashes with none of the upserted rows
survives the operator-upsert fold. -/
theorem mem_foldl_upsert_of_forall_ne {base : List RegistryOperator}
    {x : RegistryOperator} (cs : List RegistryOperator) (hx : x ∈ base)
    (h : ∀ c ∈ cs, x.index ≠ c.index) :
    x ∈ cs.foldl upsertOperatorRow base := by
  induction cs generalizing base with
  | nil => simpa using hx
  | cons c cs ih =>
    simp only [List.foldl_cons]
    exact ih (mem_upsertOperatorRow_of_ne hx (h c (List.mem_cons_self _ _)))
      (fun c' hc' => h c' (List.mem_cons_of_mem _ hc'))

/-- Helper: with pairwise-distinct indices every upserted operator row is
present after the operator-upsert fold. -/
theorem mem_foldl_upsert_of_mem_curr {cs : List RegistryOperator}
    (hnodup : cs.Pairwise (fun a b => a.index ≠ b.index))
    (base : List RegistryOperator) {c : RegistryOperator} (hc : c ∈ cs) :
    c ∈ cs.foldl upsertOperatorRow base := by
  induction cs generalizing base with
  | nil => cases hc
  | cons c0 cs ih =>
    rcases List.pairwise_cons.mp hnodup with ⟨h0, hrest⟩
    simp only [List.foldl_cons]
    rcases List.mem_cons.mp hc with h | h
    · subst h
      exact mem_foldl_upsert_of_forall_ne cs
        (self_mem_upsertOperatorRow base c) (fun c' hc' => h0 c' hc')
    · exact ih hrest _ h

/-- Helper: a key that survives the per-operator tail deletes was stored
before and clashes with no operator's deleted range. -/
theorem mem_foldl_deleteTailKeys {ks : List RegistryKey} {x : RegistryKey}
    (cs : List RegistryOperator) (hx : x ∈ cs.foldl deleteTailKeys ks) :
    x ∈ ks ∧ ∀ c ∈ cs,
      ¬(c.totalSigningKeys ≤ x.index ∧ x.operatorIndex = c.index) := by
  induction cs generalizing ks with
  | nil => exact ⟨by simpa using hx, by simp⟩
  | cons c cs ih =>
    simp only [List.foldl_cons] at hx
    obtain ⟨hmem, hall⟩ := ih hx
    rw [deleteTailKeys, List.mem_filter] at hmem
    obtain ⟨hmem1, hpred⟩ := hmem
    refine ⟨hmem1, ?_⟩
    intro c' hc'
    rcases List.mem_cons.mp hc' with h | h
    · subst h
      simp only [Bool.not_eq_true', Bool.and_eq_false_iff,
        decide_eq_false_iff_not, beq_eq_false_iff_ne, ne_eq] at hpred
      tauto
    · exact hall c' h

/-- Helper: `saveOperatorsAndMeta` preserves the total bound. -/
theorem keysBound_saveOperatorsAndMeta (s : RegistryStore)
    (cs : List RegistryOperator) (m : RegistryMeta) (hb : KeysBound s) :
    KeysBound (saveOperatorsAndMeta s cs m) := by
  intro k hk
  simp only [saveOperatorsAndMeta] at hk ⊢
  obtain ⟨hmem, hall⟩ := mem_foldl_deleteTailKeys cs hk
  obtain ⟨op, hop, hidx, hbound⟩ := hb k hmem
  obtain ⟨y, hy, hyidx, hcase⟩ := exists_mem_foldl_upsert cs hop
  refine ⟨y, hy, hyidx.trans hidx, ?_⟩
  rcases hcase with h | h
  · subst h
    exact hbound
  · have hnot := hall y h
    have hidx2 : k.operatorIndex = y.index := (hyidx.trans hidx).symm
    exact Nat.lt_of_not_le (fun hle => hnot ⟨hle, hidx2⟩)

/-- Helper: the key-sync walk preserves the total bound relative to a
fixed operator table containing every current operator. -/
theorem keysBound_sync (g : RegistryOperator → Nat) (chain : Chain)
    (prevOps ops : List RegistryOperator)
    (hfetch : ∀ o f t, ∀ k ∈ chain.fetchKeys o f t,
      k.operatorIndex = o ∧ k.index < t)
    (hg : ∀ op, g op ≤ op.totalSigningKeys) :
    ∀ i rem ks, (∀ c ∈ rem, c ∈ ops) →
      (∀ k ∈ ks, ∃ op ∈ ops,
        op.index = k.operatorIndex ∧ k.index < op.totalSigningKeys) →
      ∀ k ∈ (syncUpdatedKeysWithContract g chain prevOps i rem ks).1,
        ∃ op ∈ ops,
          op.index = k.operatorIndex ∧ k.index < op.totalSigningKeys := by
  intro i rem
  induction rem generalizing i with
  | nil =>
    intro ks _ hks k hk
    exact hks k (by simpa [syncUpdatedKeysWithContract] using hk)
  | cons curr rest ih =>
    intro ks hrem hks k hk
    simp only [syncUpdatedKeysWithContract] at hk
    refine ih (i + 1) _ (fun c hc => hrem c (List.mem_cons_of_mem _ hc)) ?_ k hk
    intro x hx
    rcases mem_saveKeys hx with h | h
    · exact hks x h
    · obtain ⟨ho, hlt⟩ := hfetch curr.index _ _ x h
      exact ⟨curr, hrem curr (List.mem_cons_self _ _), ho.symm,
        Nat.lt_of_lt_of_le hlt (hg curr)⟩

/-- C5: `update` preserves the total bound: given a well-formed key
fetcher (returned rows carry the requested operator index and sit below
the requested upper border), a `getToIndex` bounded by
`totalSigningKeys`, and pairwise-distinct current operator indices, every
stored key row after a successful `update` belongs to a stored operator
row and sits strictly below its `totalSigningKeys`. -/
theorem update_preserves_keysBound (g : RegistryOperator → Nat) (chain : Chain)
    (s : RegistryStore) (hb : KeysBound s)
    (hfetch : ∀ o f t, ∀ k ∈ chain.fetchKeys o f t,
      k.operatorIndex = o ∧ k.index < t)
    (hg : ∀ op, g op ≤ op.totalSigningKeys)
    (hnodup : chain.operators.Pairwise (fun a b => a.index ≠ b.index)) :
    KeysBound (update g chain s).store := by
  unfold update
  by_cases h1 : ((s.meta.map RegistryMeta.blockNumber).getD (-1)) >
      chain.meta.blockNumber
  · rw [if_pos h1]
    exact hb
  · rw [if_neg h1]
    by_cases h2 : compareMeta s.meta chain.meta
    · rw [if_pos h2]
      intro k hk
      exact hb k hk
    · rw [if_neg h2]
      have hbase := keysBound_saveOperatorsAndMeta s chain.operators chain.meta hb
      intro k hk
      exact keysBound_sync g chain s.operators
        ((saveOperatorsAndMeta s chain.operators chain.meta).operators)
        hfetch hg 0 chain.operators
        ((saveOperatorsAndMeta s chain.operators chain.meta).keys)
        (fun c hc => mem_foldl_upsert_of_mem_curr hnodup s.operators hc)
        hbase k hk

/-- Witness for C5 on a concrete store, chain and the key-registry
`getToIndex`. -/
theorem update_preserves_keysBound_witness :
    KeysBound (update keyRegistryGetToIndex
      { meta := ⟨101, "0xBB", 8, 1701⟩,
        operators := [⟨0, true, "a", "ra", 0, 0, 3, 1⟩],
        fetchKeys := fun _ _ _ => [] }
      { meta := some ⟨100, "0xAA", 7, 1700⟩,
        operators := [⟨0, true, "a", "ra", 0, 0, 4, 1⟩],
        keys := [⟨0, 0, "k0", "s0", true⟩, ⟨0, 3, "k3", "s3", false⟩] }).store :=
  update_preserves_keysBound keyRegistryGetToIndex
    { meta := ⟨101, "0xBB", 8, 1701⟩,
      operators := [⟨0, true, "a", "ra", 0, 0, 3, 1⟩],
      fetchKeys := fun _ _ _ => [] }
    { meta := some ⟨100, "0xAA", 7, 1700⟩,
      operators := [⟨0, true, "a", "ra", 0, 0, 4, 1⟩],
      keys := [⟨0, 0, "k0", "s0", true⟩, ⟨0, 3, "k3", "s3", false⟩] }
    (by unfold KeysBound; decide)
    (by intro o f t k hk; simp at hk)
    (fun op => Nat.le_refl _)
    (by simp)

/-- Helper: filtering with a predicate that keeps every row of a cell
does not change the lookup at that cell. -/
theorem keyLookup_filter (p : RegistryKey → Bool) (o i : Nat)
    (ks : List RegistryKey)
    (hp : ∀ k : RegistryKey, k.operatorIndex = o → k.index = i → p k = true) :
    keyLookup (ks.filter p) o i = keyLookup ks o i := by
  induction ks with
  | nil => rfl
  | cons r rs ih =>
    rw [List.filter_cons]
    cases hcell : (r.operatorIndex == o && r.index == i) with
    | true =>
      have hc : r.operatorIndex = o ∧ r.index = i := by
        rw [Bool.and_eq_true, beq_iff_eq, beq_iff_eq] at hcell
        exact hcell
      rw [if_pos (hp r hc.1 hc.2)]
      unfold keyLookup
      rw [List.find?_cons_of_pos _ (by simpa using hcell),
        List.find?_cons_of_pos _ (by simpa using hcell)]
    | false =>
      cases hpr : p r with
      | true =>
        rw [if_pos rfl]
        unfold keyLookup at ih ⊢
        rw [List.find?_cons_of_neg _ (by simp [hcell]),
          List.find?_cons_of_neg _ (by simp [hcell])]
        exact ih
      | false =>
        rw [if_neg (by simp)]
        unfold keyLookup at ih ⊢
        rw [List.find?_cons_of_neg _ (by simp [hcell])]
        exact ih

/-- Helper: the tail delete for operator `c` does not touch cell
`(o, i)` when either `c` has a different index or `i` lies strictly below
`c.totalSigningKeys`. -/
theorem keyLookup_deleteTailKeys (c : RegistryOperator) (o i : Nat)
    (ks : List RegistryKey) (h : c.index = o → i < c.totalSigningKeys) :
    keyLookup (deleteTailKeys ks c) o i = keyLookup ks o i := by
  unfold deleteTailKeys
  refine keyLookup_filter _ o i ks ?_
  intro k hko hki
  by_cases hc : c.index = o
  · have : ¬ c.totalSigningKeys ≤ k.index := by
      rw [hki]
      exact Nat.not_le_of_lt (h hc)
    simp [this]
  · have : k.operatorIndex ≠ c.index := by
      rw [hko]
      exact fun hh => hc hh.symm
    simp [this]

/-- Helper: the fold of tail deletes does not touch cell `(o, i)` when
`i` lies below `totalSigningKeys` of every operator of index `o` in the
list. -/
theorem keyLookup_foldl_deleteTailKeys (o i : Nat)
    (cs : List RegistryOperator) (ks : List RegistryKey)
    (h : ∀ c ∈ cs, c.index = o → i < c.totalSigningKeys) :
    keyLookup (cs.foldl deleteTailKeys ks) o i = keyLookup ks o i := by
  induction cs generalizing ks with
  | nil => rfl
  | cons c cs ih =>
    simp only [List.foldl_cons]
    rw [ih _ (fun c' hc' => h c' (List.mem_cons_of_mem _ hc')),
      keyLookup_deleteTailKeys c o i ks (h c (List.mem_cons_self _ _))]

/-- Helper: upserting a row of a different cell does not change the
lookup at `(o, i)`. -/
theorem keyLookup_upsertKeyRow_other (k : RegistryKey) (o i : Nat)
    (ks : List RegistryKey) (h : ¬(k.operatorIndex = o ∧ k.index = i)) :
    keyLookup (upsertKeyRow ks k) o i = keyLookup ks o i := by
  have hkcell : (k.operatorIndex == o && k.index == i) = false := by
    cases hh : (k.operatorIndex == o && k.index == i)
    · rfl
    · rw [Bool.and_eq_true, beq_iff_eq, beq_iff_eq] at hh
      exact absurd hh h
  induction ks with
  | nil =>
    simp only [upsertKeyRow]
    unfold keyLookup
    rw [List.find?_cons_of_neg _ (by simp [hkcell])]
  | cons r rs ih =>
    simp only [upsertKeyRow]
    split
    · next hsame =>
      have hrcell : (r.operatorIndex == o && r.index == i) = false := by
        rw [Bool.and_eq_true, beq_iff_eq, beq_iff_eq] at hsame
        rw [show r.operatorIndex = k.operatorIndex from hsame.1,
          show r.index = k.index from hsame.2]
        exact hkcell
      unfold keyLookup
      rw [List.find?_cons_of_neg _ (by simp [hkcell]),
        List.find?_cons_of_neg _ (by simp [hrcell])]
    · next hdiffcell =>
      cases hr : (r.operatorIndex == o && r.index == i) with
      | true =>
        unfold keyLookup
        rw [List.find?_cons_of_pos _ (by simpa using hr),
          List.find?_cons_of_pos _ (by simpa using hr)]
      | false =>
        unfold keyLookup at ih ⊢
        rw [List.find?_cons_of_neg _ (by simp [hr]),
          List.find?_cons_of_neg _ (by simp [hr])]
        exact ih

/-- Helper: upserting the very row the lookup at `(o, i)` already
returns leaves the lookup unchanged. -/
theorem keyLookup_upsertKeyRow_same (k : RegistryKey) (o i : Nat)
    (ks : List RegistryKey) (ho : k.operatorIndex = o) (hi : k.index = i)
    (hl : keyLookup ks o i = some k) :
    keyLookup (upsertKeyRow ks k) o i = some k := by
  induction ks with
  | nil => simp [keyLookup] at hl
  | cons r rs ih =>
    simp only [upsertKeyRow]
    split
    · next hsame =>
      unfold keyLookup
      rw [List.find?_cons_of_pos _ (by simp [ho, hi])]
    · next hdiff =>
      have hrcell : (r.operatorIndex == o && r.index == i) = false := by
        cases hh : (r.operatorIndex == o && r.index == i)
        · rfl
        · rw [Bool.and_eq_true, beq_iff_eq, beq_iff_eq] at hh
          refine absurd ?_ hdiff
          rw [Bool.and_eq_true, beq_iff_eq, beq_iff_eq]
          exact ⟨hh.1.trans ho.symm, hh.2.trans hi.symm⟩
      unfold keyLookup at hl ih ⊢
      rw [List.find?_cons_of_neg _ (by simp [hrcell])] at hl
      rw [List.find?_cons_of_neg _ (by simp [hrcell])]
      exact ih hl

/-- Helper: `saveKeys` leaves the lookup at `(o, i)` unchanged when every
fetched row of that cell equals the row already stored there. -/
theorem keyLookup_saveKeys (o i : Nat) (orig : List RegistryKey)
    (fetched : List RegistryKey)
    (hagree : ∀ k ∈ fetched, k.operatorIndex = o → k.index = i →
      keyLookup orig o i = some k) :
    ∀ cur, keyLookup cur o i = keyLookup orig o i →
      keyLookup (saveKeys cur fetched) o i = keyLookup orig o i := by
  induction fetched with
  | nil => intro cur hcur; simpa [saveKeys] using hcur
  | cons k ks ih =>
    intro cur hcur
    have hstep : keyLookup (upsertKeyRow cur k) o i = keyLookup orig o i := by
      by_cases hcell : k.operatorIndex = o ∧ k.index = i
      · have hor := hagree k (List.mem_cons_self _ _) hcell.1 hcell.2
        rw [keyLookup_upsertKeyRow_same k o i cur hcell.1 hcell.2
          (hcur.trans hor), hor]
      · rw [keyLookup_upsertKeyRow_other k o i cur hcell, hcur]
    have hrest := ih (fun k' hk' => hagree k' (List.mem_cons_of_mem _ hk'))
      (upsertKeyRow cur k) hstep
    simpa [saveKeys] using hrest

/-- Helper: the key-sync walk leaves the lookup at `(o, i)` unchanged
when the fetcher tags rows with the requested operator index and agrees
with the store on every row of that cell. -/
theorem keyLookup_sync (g : RegistryOperator → Nat) (chain : Chain)
    (prevOps : List RegistryOperator) (o i : Nat) (orig : List RegistryKey)
    (hfetchIdx : ∀ o' f t, ∀ k ∈ chain.fetchKeys o' f t, k.operatorIndex = o')
    (hagree : ∀ f t k, k ∈ chain.fetchKeys o f t → k.index = i →
      keyLookup orig o i = some k) :
    ∀ j rem cur, keyLookup cur o i = keyLookup orig o i →
      keyLookup (syncUpdatedKeysWithContract g chain prevOps j rem cur).1 o i =
        keyLookup orig o i := by
  intro j rem
  induction rem generalizing j with
  | nil => intro cur hcur; simpa [syncUpdatedKeysWithContract] using hcur
  | cons curr rest ih =>
    intro cur hcur
    simp only [syncUpdatedKeysWithContract]
    refine ih (j + 1) _ ?_
    refine keyLookup_saveKeys o i orig _ ?_ cur hcur
    intro k hk hko hki
    by_cases hoc : curr.index = o
    · exact hagree _ _ k (by rwa [hoc] at hk) hki
    · exact absurd ((hfetchIdx curr.index _ _ k hk).symm.trans hko) hoc

/-- Helper: with pairwise-distinct indices, two members of the list with
equal index are equal. -/
theorem pairwise_index_unique : ∀ (l : List RegistryOperator),
    l.Pairwise (fun a b => a.index ≠ b.index) →
    ∀ a b : RegistryOperator, a ∈ l → b ∈ l → a.index = b.index → a = b := by
  intro l
  induction l with
  | nil => intro _ a b ha _ _; cases ha
  | cons c rest ih =>
    intro h a b ha hb hidx
    rcases List.pairwise_cons.mp h with ⟨hc, hrest⟩
    rcases List.mem_cons.mp ha with h1 | h1 <;> rcases List.mem_cons.mp hb with h2 | h2
    · rw [h1, h2]
    · subst h1
      exact absurd hidx (hc b h2)
    · subst h2
      exact absurd hidx.symm (hc a h1)
    · exact ih hrest a b h1 h2 hidx

/-- C6: across one `update` cycle the key row at any index below
`min(usedSigningKeys before, usedSigningKeys after)` of an operator is
unchanged, provided the fetcher tags rows with the requested operator
index and — the contract's historical guarantee — returns, for every
index inside the stored used prefix, exactly the row the store already
holds. -/
theorem update_keeps_used_keys (g : RegistryOperator → Nat) (chain : Chain)
    (s : RegistryStore) (prevOp curr : RegistryOperator) (i : Nat)
    (_hprev : prevOp ∈ s.operators)
    (hcurr : curr ∈ chain.operators)
    (hnodup : chain.operators.Pairwise (fun a b => a.index ≠ b.index))
    (husedtot : curr.usedSigningKeys ≤ curr.totalSigningKeys)
    (hfetchIdx : ∀ o' f t, ∀ k ∈ chain.fetchKeys o' f t, k.operatorIndex = o')
    (hagree : ∀ f t k, k ∈ chain.fetchKeys curr.index f t →
      k.index < prevOp.usedSigningKeys →
      keyLookup s.keys curr.index k.index = some k)
    (hi : i < prevOp.usedSigningKeys) (hi2 : i < curr.usedSigningKeys) :
    keyLookup (update g chain s).store.keys curr.index i =
      keyLookup s.keys curr.index i := by
  unfold update
  by_cases h1 : ((s.meta.map RegistryMeta.blockNumber).getD (-1)) >
      chain.meta.blockNumber
  · rw [if_pos h1]
  · rw [if_neg h1]
    by_cases h2 : compareMeta s.meta chain.meta
    · rw [if_pos h2]
    · rw [if_neg h2]
      have hstep1 :
          keyLookup ((saveOperatorsAndMeta s chain.operators chain.meta).keys)
            curr.index i = keyLookup s.keys curr.index i := by
        simp only [saveOperatorsAndMeta]
        refine keyLookup_foldl_deleteTailKeys _ _ chain.operators s.keys ?_
        intro c hc hcidx
        rw [pairwise_index_unique chain.operators hnodup c curr hc hcurr hcidx]
        exact Nat.lt_of_lt_of_le hi2 husedtot
      exact keyLookup_sync g chain s.operators curr.index i s.keys hfetchIdx
        (fun f t k hk hki => by
          have hh := hagree f t k hk (by rw [hki]; exact hi)
          rwa [hki] at hh)
        0 chain.operators _ hstep1

/-- Witness for C6 on a concrete store and chain whose operator 0 has a
shrunk `totalSigningKeys`, forcing the slow path. -/
theorem update_keeps_used_keys_witness :
    keyLookup (update keyRegistryGetToIndex
      { meta := ⟨101, "0xBB", 8, 1701⟩,
        operators := [⟨0, true, "a", "ra", 0, 0, 3, 1⟩],
        fetchKeys := fun _ _ _ => [] }
      { meta := some ⟨100, "0xAA", 7, 1700⟩,
        operators := [⟨0, true, "a", "ra", 0, 0, 4, 1⟩],
        keys := [⟨0, 0, "k0", "s0", true⟩] }).store.keys 0 0 =
    keyLookup [⟨0, 0, "k0", "s0", true⟩] 0 0 :=
  update_keeps_used_keys keyRegistryGetToIndex
    { meta := ⟨101, "0xBB", 8, 1701⟩,
      operators := [⟨0, true, "a", "ra", 0, 0, 3, 1⟩],
      fetchKeys := fun _ _ _ => [] }
    { meta := some ⟨100, "0xAA", 7, 1700⟩,
      operators := [⟨0, true, "a", "ra", 0, 0, 4, 1⟩],
      keys := [⟨0, 0, "k0", "s0", true⟩] }
    ⟨0, true, "a", "ra", 0, 0, 4, 1⟩ ⟨0, true, "a", "ra", 0, 0, 3, 1⟩ 0
    (by simp) (by simp) (by simp) (by decide)
    (by intro o f t k hk; simp at hk)
    (by intro f t k hk; simp at hk)
    (by decide) (by decide)

/-- C7, counterexample: the code's upserts conflict on
`(index, operator_index)` (keys) and `index` (operators) without the
module address, so a row of module A is overwritten by an upsert of a
same-index row of module B — unlike the spec's composite-key upsert,
which keeps both. -/
theorem upsert_ignores_moduleAddress_counterexample :
    saveModuleKeys [⟨"0xModA", 0, 0, "kA", "sA", false⟩]
        [⟨"0xModB", 0, 0, "kB", "sB", true⟩] =
      [⟨"0xModB", 0, 0, "kB", "sB", true⟩] ∧
    upsertModuleKeyRowSpec [⟨"0xModA", 0, 0, "kA", "sA", false⟩]
        ⟨"0xModB", 0, 0, "kB", "sB", true⟩ =
      [⟨"0xModA", 0, 0, "kA", "sA", false⟩, ⟨"0xModB", 0, 0, "kB", "sB", true⟩] ∧
    upsertModuleOperatorRow [⟨"0xModA", 0, true, "a", "ra", 0, 0, 1, 0⟩]
        ⟨"0xModB", 0, true, "b", "rb", 0, 0, 2, 0⟩ =
      [⟨"0xModB", 0, true, "b", "rb", 0, 0, 2, 0⟩] ∧
    upsertModuleOperatorRowSpec [⟨"0xModA", 0, true, "a", "ra", 0, 0, 1, 0⟩]
        ⟨"0xModB", 0, true, "b", "rb", 0, 0, 2, 0⟩ =
      [⟨"0xModA", 0, true, "a", "ra", 0, 0, 1, 0⟩,
        ⟨"0xModB", 0, true, "b", "rb", 0, 0, 2, 0⟩] := by
  refine ⟨rfl, rfl, rfl, rfl⟩

/-- C7, amended: the upserts conflict-merge on `(operatorIndex, index)`
for keys and on `index` for operators, replacing all columns; the module
address is not part of either conflict target, so any stored row with the
same indices is replaced regardless of its module address. -/
theorem upsert_conflict_on_index_only (r k : ModuleKeyRow)
    (hop : r.operatorIndex = k.operatorIndex) (hidx : r.index = k.index)
    (a b : ModuleOperatorRow) (hoidx : a.index = b.index) :
    upsertModuleKeyRow [r] k = [k] ∧ upsertModuleOperatorRow [a] b = [b] := by
  constructor
  · simp [upsertModuleKeyRow, hop, hidx]
  · simp [upsertModuleOperatorRow, hoidx]

/-- Witness for the amended C7: rows with equal indices but distinct
module addresses still collide. -/
theorem upsert_conflict_on_index_only_witness :
    upsertModuleKeyRow [⟨"0xModA", 3, 5, "kA", "sA", false⟩]
        ⟨"0xModB", 3, 5, "kB", "sB", true⟩ =
      [⟨"0xModB", 3, 5, "kB", "sB", true⟩] ∧
    upsertModuleOperatorRow [⟨"0xModA", 4, true, "a", "ra", 0, 0, 1, 0⟩]
        ⟨"0xModB", 4, true, "b", "rb", 0, 0, 2, 0⟩ =
      [⟨"0xModB", 4, true, "b", "rb", 0, 0, 2, 0⟩] :=
  upsert_conflict_on_index_only
    ⟨"0xModA", 3, 5, "kA", "sA", false⟩ ⟨"0xModB", 3, 5, "kB", "sB", true⟩
    rfl rfl
    ⟨"0xModA", 4, true, "a", "ra", 0, 0, 1, 0⟩
    ⟨"0xModB", 4, true, "b", "rb", 0, 0, 2, 0⟩ rfl

/-- Helper: with a null meta the module loop either raises `TooEarly` or
passes its accumulators through untouched. -/
theorem collectCuratedKeys_none (curatedKeys : List RegistryKey) :
    ∀ i mods collected snap,
      collectCuratedKeys curatedKeys none i mods collected snap =
        .error .tooEarly ∨
      collectCuratedKeys curatedKeys none i mods collected snap =
        .ok (collected, snap) := by
  intro i mods
  induction mods generalizing i with
  | nil => intro c s; exact .inr rfl
  | cons m rest ih =>
    intro c s
    simp only [collectCuratedKeys]
    by_cases hm : (m.type == StakingModuleType.curatedOnchainV1) = true
    · rw [if_pos hm]
      exact .inl rfl
    · rw [if_neg hm]
      exact ih (i + 1) c s

/-- C8: with a null stored meta every HTTP key read — `get`,
`getByPubkey`, `getByPubkeys` — raises `TooEarly` (HTTP 425) and returns
no key data; a successful return always carries a non-null EL block
snapshot by construction. -/
theorem keysService_tooEarly_on_null_meta
    (stakingModules : List StakingModule) (pubkey : String)
    (curatedKeys : List RegistryKey) :
    KeysService.get stakingModules none = .error .tooEarly ∧
    KeysService.getByPubkey stakingModules pubkey curatedKeys none =
      .error .tooEarly ∧
    KeysService.getByPubkeys stakingModules curatedKeys none =
      .error .tooEarly := by
  refine ⟨?_, ?_, ?_⟩
  · unfold KeysService.get
    by_cases h : (stakingModules.length == 0) = true
    · rw [if_pos h]
    · rw [if_neg h]
  · unfold KeysService.getByPubkey
    by_cases h : (stakingModules.length == 0) = true
    · rw [if_pos h]
    · rw [if_neg h]
      rcases collectCuratedKeys_none curatedKeys 0 stakingModules [] none with
        hc | hc
      · rw [hc]
      · rw [hc]
  · unfold KeysService.getByPubkeys
    by_cases h : (stakingModules.length == 0) = true
    · rw [if_pos h]
    · rw [if_neg h]
      rcases collectCuratedKeys_none curatedKeys 0 stakingModules [] none with
        hc | hc
      · rw [hc]
      · rw [hc]

/-- Helper: from position 1 onwards, with a present meta and an empty
curated answer the module loop succeeds, never touches the snapshot and
adds only empty key lists. -/
theorem collectCuratedKeys_empty (mt : RegistryMeta) :
    ∀ i mods collected snap, 1 ≤ i →
      ∃ collected2,
        collectCuratedKeys [] (some mt) i mods collected snap =
          .ok (collected2, snap) ∧
        collected2.flatten = collected.flatten := by
  intro i mods
  induction mods generalizing i with
  | nil => intro c s _; exact ⟨c, rfl, rfl⟩
  | cons m rest ih =>
    intro c s hi
    simp only [collectCuratedKeys]
    by_cases hm : (m.type == StakingModuleType.curatedOnchainV1) = true
    · rw [if_pos hm]
      have hi0 : ¬ ((i == 0) = true) := by
        rw [beq_iff_eq]
        omega
      rw [if_neg hi0]
      simp only [List.map_nil]
      obtain ⟨c2, heq, hjoin⟩ := ih (i + 1) (c ++ [[]]) s (by omega)
      exact ⟨c2, heq, hjoin.trans (by simp)⟩
    · rw [if_neg hm]
      exact ih (i + 1) c s (by omega)

/-- C10: with a non-empty module list headed by the curated module and a
present meta, an empty lookup result makes `getByPubkey` raise
`NotFoundException`, while `getByPubkeys` returns normally with an empty
data list and the EL block snapshot. -/
theorem getByPubkey_notFound_vs_getByPubkeys_empty
    (m0 : StakingModule) (rest : List StakingModule) (pubkey : String)
    (mt : RegistryMeta) (hty : m0.type = .curatedOnchainV1) :
    KeysService.getByPubkey (m0 :: rest) pubkey [] (some mt) =
      .error (.notFound s!"There are no keys with {pubkey} public key in db.") ∧
    KeysService.getByPubkeys (m0 :: rest) [] (some mt) =
      .ok ⟨[], elBlockSnapshotOfMeta mt⟩ := by
  have hstep : collectCuratedKeys [] (some mt) 0 (m0 :: rest) [] none =
      collectCuratedKeys [] (some mt) 1 rest [[]]
        (some (elBlockSnapshotOfMeta mt)) := by
    simp [collectCuratedKeys, hty]
  obtain ⟨c2, heq, hjoin⟩ := collectCuratedKeys_empty mt 1 rest [[]]
    (some (elBlockSnapshotOfMeta mt)) (le_refl 1)
  have hflat : c2.flatten = [] := by simpa using hjoin
  constructor
  · unfold KeysService.getByPubkey
    rw [if_neg (by simp), hstep, heq]
    simp [hflat]
  · unfold KeysService.getByPubkeys
    rw [if_neg (by simp), hstep, heq]
    simp [hflat]

/-- Witness for C10 on a concrete module list and meta. -/
theorem getByPubkey_notFound_vs_getByPubkeys_empty_witness :
    KeysService.getByPubkey [⟨.curatedOnchainV1, "0xMod"⟩] "0xab" []
        (some ⟨100, "0xAA", 7, 1700⟩) =
      .error (.notFound "There are no keys with 0xab public key in db.") ∧
    KeysService.getByPubkeys [⟨.curatedOnchainV1, "0xMod"⟩] []
        (some ⟨100, "0xAA", 7, 1700⟩) =
      .ok ⟨[], elBlockSnapshotOfMeta ⟨100, "0xAA", 7, 1700⟩⟩ :=
  getByPubkey_notFound_vs_getByPubkeys_empty
    ⟨.curatedOnchainV1, "0xMod"⟩ [] "0xab" ⟨100, "0xAA", 7, 1700⟩ rfl

/-- C9, counterexample: a successful, timely cycle (50 minutes after the
timer was armed, well before its deadline) that observes a stale block
timestamp does not clear the armed timer: `isUpdated` is false, the old
timer stays in the armed set next to the freshly armed one, and when it
fires the process exits with code 1 — so "a timely success prevents the
exit" fails as stated. -/
theorem watchdog_stale_timestamp_counterexample :
    (successfulCycle
        { timers := [(0, 1700005400000)], refTimer := some 0,
          lastBlockTimestampSec := some 1690000000,
          lastBlockNumber := some 42, nextId := 1 }
        1700003000000 (some ⟨1690000000, 99, 7⟩)).timers =
      [(0, 1700005400000), (1, 1700008400000)] ∧
    (watchdogFire (successfulCycle
        { timers := [(0, 1700005400000)], refTimer := some 0,
          lastBlockTimestampSec := some 1690000000,
          lastBlockNumber := some 42, nextId := 1 }
        1700003000000 (some ⟨1690000000, 99, 7⟩))).2 = 1 ∧
    (watchdogFire (successfulCycle
        { timers := [(0, 1700005400000)], refTimer := some 0,
          lastBlockTimestampSec := some 1690000000,
          lastBlockNumber := some 42, nextId := 1 }
        1700003000000 (some ⟨1690000000, 99, 7⟩))).1.lastBlock = some 99 := by
  refine ⟨by decide, rfl, rfl⟩

/-- C9, amended: the timeout is `90 * 60 * 1000` ms; the deadline-timer
callback exits with code 1 carrying the last observed block number; after
every successful cycle a fresh deadline timer is armed, and the
previously armed timer is cleared exactly when the observed block
timestamp is within `updateTimeoutMs / 1000` seconds of the wall clock —
a timely success with a recent block timestamp therefore prevents the
exit, while one observing a stale block leaves the old timer to fire. -/
theorem watchdog_behavior (st : WatchdogState) (nowMs : Int)
    (m : ValidatorsMeta) (id : Nat)
    (href : st.refTimer = some id) (hid : id ≠ st.nextId)
    (hts : m.timestamp ≠ 0)
    (hfresh : nowMs / 1000 - m.timestamp <
      UPDATE_VALIDATORS_TIMEOUT_MS / 1000) :
    UPDATE_VALIDATORS_TIMEOUT_MS = 90 * 60 * 1000 ∧
    (successfulCycle st nowMs (some m)).refTimer = some st.nextId ∧
    (st.nextId, nowMs + UPDATE_VALIDATORS_TIMEOUT_MS) ∈
      (successfulCycle st nowMs (some m)).timers ∧
    (∀ d, (id, d) ∉ (successfulCycle st nowMs (some m)).timers) ∧
    (watchdogFire st).2 = 1 ∧
    (watchdogFire st).1.lastBlock = st.lastBlockNumber := by
  have hupd : ∀ st' : WatchdogState,
      st'.lastBlockTimestampSec = some m.timestamp →
      isUpdated st' nowMs = true := by
    intro st' h'
    simp [isUpdated, h', hts, hfresh]
  have htimers : (successfulCycle st nowMs (some m)).timers =
      st.timers.filter (fun p => p.1 != id) ++
        [(st.nextId, nowMs + UPDATE_VALIDATORS_TIMEOUT_MS)] := by
    simp only [successfulCycle, checkValidatorsUpdateTimeout, href]
    rw [hupd _ rfl]
    simp
  refine ⟨rfl, ?_, ?_, ?_, rfl, rfl⟩
  · simp [successfulCycle, checkValidatorsUpdateTimeout]
  · rw [htimers]
    simp
  · intro d hd
    rw [htimers] at hd
    rcases List.mem_append.mp hd with hd | hd
    · have hpred := (List.mem_filter.mp hd).2
      simp at hpred
    · simp at hd
      exact hid hd.1

/-- Witness for the amended C9: a success with a fresh block timestamp
clears the old timer (id 0) and arms a new one (id 1). -/
theorem watchdog_behavior_witness :
    ((1 : Nat), (1000000 : Int) + UPDATE_VALIDATORS_TIMEOUT_MS) ∈
      (successfulCycle
        { timers := [(0, 5400000)], refTimer := some 0,
          lastBlockTimestampSec := some 100, lastBlockNumber := some 7,
          nextId := 1 } 1000000 (some ⟨900, 50, 3⟩)).timers ∧
    ∀ d, ((0 : Nat), d) ∉
      (successfulCycle
        { timers := [(0, 5400000)], refTimer := some 0,
          lastBlockTimestampSec := some 100, lastBlockNumber := some 7,
          nextId := 1 } 1000000 (some ⟨900, 50, 3⟩)).timers :=
  ⟨(watchdog_behavior
      { timers := [(0, 5400000)], refTimer := some 0,
        lastBlockTimestampSec := some 100, lastBlockNumber := some 7,
        nextId := 1 } 1000000 ⟨900, 50, 3⟩ 0 rfl
      (by decide) (by decide) (by decide)).2.2.1,
   (watchdog_behavior
      { timers := [(0, 5400000)], refTimer := some 0,
        lastBlockTimestampSec := some 100, lastBlockNumber := some 7,
        nextId := 1 } 1000000 ⟨900, 50, 3⟩ 0 rfl
      (by decide) (by decide) (by decide)).2.2.2.1⟩

end LidoKeys
